import Mathlib

/-!
Verification of the criterium library (a TypeScript criteria-pattern
implementation) against its natural-language specification.

The embedding is shallow: each TypeScript class or function is translated
into a Lean definition over `List`.

Source inventory:
* `src/criteria.ts` (abstract class `Criteria<T>` with `meetCriteria` and the
  static factory `Criteria.create`),
* `src/criterias.ts` (`AndCriteria`, `OrCriteria`, `NotCriteria`),
* `src/utils.ts` (`OrderBy` with its comparator-based `apply`),
* `src/builder.ts` (`CriteriaBuilder` with `addCriteria`, `setOrderBy`,
  `build`),
* `src/type.ts` (`OrderDirection = 'asc' | 'desc'`).

Modelling conventions:
* A TypeScript array `T[]` is a `List T`.
* JavaScript `Array.prototype.filter` is `List.filter`.
* `[...new Set(l)]` keeps the first occurrence of each element in order;
  it is modelled by `setDedup` below.  JavaScript `Set` membership and
  `Array.prototype.includes` compare by SameValueZero (identity for
  objects, value equality for primitives); both are modelled by a
  `DecidableEq` instance on the item type.
* `Array.prototype.sort(cmp)` is required by ECMAScript to be a stable
  sort consistent with the comparator; it is modelled by the stable
  insertion sort `stableSort` below.  Its in-place behaviour (the caller's
  array object itself is reordered and returned) is modelled separately by
  a reference-and-store model further down.
* A TypeScript property access `a[k]` for `k : keyof T` is modelled by a
  selector function `T → K`; the `<` / `>` comparisons of `utils.ts` need
  the selected values to be totally ordered, hence `[LinearOrder K]`.
-/

namespace Criterium

/-- OrderDirection from `src/type.ts`: the string union `'asc' | 'desc'`. -/
inductive OrderDirection : Type where
  | asc : OrderDirection
  | desc : OrderDirection
deriving DecidableEq

/-- The `Criteria<T>` capability from `src/criteria.ts`: a single operation
`meetCriteria(items: T[]): T[]`. -/
structure Criteria (T : Type) : Type where
  meetCriteria : List T → List T

/-- `Criteria.create(predicate)` from `src/criteria.ts`: returns an object
whose `meetCriteria` is `items.filter(predicate)`. -/
def Criteria.create {T : Type} (predicate : T → Bool) : Criteria T :=
  ⟨fun items => items.filter predicate⟩

/-- `AndCriteria` from `src/criterias.ts`: `meetCriteria(items)` first runs
`this.criteria.meetCriteria(items)` and feeds the result to
`this.otherCriteria.meetCriteria`. -/
def AndCriteria {T : Type} (criteria otherCriteria : Criteria T) : Criteria T :=
  ⟨fun items => otherCriteria.meetCriteria (criteria.meetCriteria items)⟩

/-- First-occurrence deduplication with an explicit list of already-seen
elements: the model of iterating a JavaScript `Set` built by insertion.
An element is emitted the first time it appears and skipped afterwards. -/
def setDedupAux {T : Type} [DecidableEq T] (seen : List T) : List T → List T
  | [] => []
  | x :: xs =>
      if x ∈ seen then setDedupAux seen xs
      else x :: setDedupAux (x :: seen) xs

/-- The model of `[...new Set(l)]`: keep the first occurrence of each
element, in first-occurrence order. -/
def setDedup {T : Type} [DecidableEq T] (l : List T) : List T :=
  setDedupAux [] l

/-- `OrCriteria` from `src/criterias.ts`: evaluates both sub-criteria on the
original `items` and returns `[...new Set([...first, ...other])]`. -/
def OrCriteria {T : Type} [DecidableEq T] (criteria otherCriteria : Criteria T) :
    Criteria T :=
  ⟨fun items =>
    setDedup (criteria.meetCriteria items ++ otherCriteria.meetCriteria items)⟩

/-- `NotCriteria` from `src/criterias.ts`: `meetCriteria(items)` evaluates the
wrapped criteria on `items` and returns
`items.filter((item) => !criteriaItems.includes(item))`. -/
def NotCriteria {T : Type} [DecidableEq T] (criteria : Criteria T) : Criteria T :=
  ⟨fun items =>
    items.filter (fun item => decide (item ∉ criteria.meetCriteria items))⟩

/-- `OrderBy<T>` from `src/utils.ts`: a property selector and a direction.
The TypeScript `property: keyof T` is modelled as a selector `T → K`. -/
structure OrderBy (T K : Type) : Type where
  property : T → K
  direction : OrderDirection

/-- The comparator passed to `items.sort` in `OrderBy.apply`
(`src/utils.ts` lines 13-19): `-1`/`1` when the selected attributes compare
with `<`, `1`/`-1` when they compare with `>`, `0` otherwise, the sign pair
chosen by the direction. -/
def OrderBy.cmp {T K : Type} [LinearOrder K] (ob : OrderBy T K) (a b : T) : Int :=
  if ob.property a < ob.property b then
    (if ob.direction = OrderDirection.asc then -1 else 1)
  else if ob.property a > ob.property b then
    (if ob.direction = OrderDirection.asc then 1 else -1)
  else 0

/-- Insert `x` into `l` in front of the first element `y` with
`cmp x y ≤ 0`.  Because `stableSort` inserts elements taken from the front
of the input (which precede everything already inserted), placing `x`
before the first non-greater element realises a stable sort. -/
def sortInsert {T : Type} (cmp : T → T → Int) (x : T) : List T → List T
  | [] => [x]
  | y :: ys => if cmp x y ≤ 0 then x :: y :: ys else y :: sortInsert cmp x ys

/-- Stable comparator sort: the model of `Array.prototype.sort(cmp)`, which
ECMAScript requires to be stable and consistent with the comparator.  For a
consistent comparator (as produced by `OrderBy.cmp`) the stable sorted
result is unique, so any stable sorting algorithm is an adequate model;
insertion sort is used because it is structurally recursive. -/
def stableSort {T : Type} (cmp : T → T → Int) : List T → List T
  | [] => []
  | x :: xs => sortInsert cmp x (stableSort cmp xs)

/-- `OrderBy.apply` from `src/utils.ts`: sorts `items` with `OrderBy.cmp`.
This is the value-level result; the in-place/aliasing behaviour of the
underlying `items.sort` is modelled separately by `OrderBy.applyRef`. -/
def OrderBy.apply {T K : Type} [LinearOrder K] (ob : OrderBy T K)
    (items : List T) : List T :=
  stableSort ob.cmp items

/-- The state of a `CriteriaBuilder<T>` from `src/builder.ts`: the private
fields `criteriaChain` and `orderBy`. -/
structure CriteriaBuilder (T K : Type) : Type where
  criteriaChain : List (Criteria T)
  orderBy : Option (OrderBy T K)

/-- `new CriteriaBuilder()`: field initialisers give an empty chain and an
unset (undefined) `orderBy`. -/
def CriteriaBuilder.new (T K : Type) : CriteriaBuilder T K :=
  ⟨[], none⟩

/-- `CriteriaBuilder.addCriteria`: pushes onto `this.criteriaChain` (and
returns `this`; state-passing models the mutation). -/
def CriteriaBuilder.addCriteria {T K : Type} (b : CriteriaBuilder T K)
    (criteria : Criteria T) : CriteriaBuilder T K :=
  ⟨b.criteriaChain ++ [criteria], b.orderBy⟩

/-- `CriteriaBuilder.setOrderBy`: overwrites `this.orderBy` with a fresh
`OrderBy` (and returns `this`). -/
def CriteriaBuilder.setOrderBy {T K : Type} (b : CriteriaBuilder T K)
    (property : T → K) (direction : OrderDirection) : CriteriaBuilder T K :=
  ⟨b.criteriaChain, some ⟨property, direction⟩⟩

/-- Applies an optional ordering directive, as the composite returned by
`build()` does after the reduce: `if (this.orderBy) result = this.orderBy.apply(result)`. -/
def applyOrderOpt {T K : Type} [LinearOrder K] (ob : Option (OrderBy T K))
    (l : List T) : List T :=
  match ob with
  | some o => o.apply l
  | none => l

/-- Evaluation of the composite returned by `CriteriaBuilder.build()`,
`src/builder.ts` lines 19-32.  The returned object's `meetCriteria` is a
closure over `this`: it reads `this.criteriaChain` and `this.orderBy` when
it is CALLED, not when `build()` was called (no copy is taken).  Its
behaviour is therefore a function of the builder's state at the moment of
evaluation, which is what the explicit `b` argument represents: evaluating
a composite — whenever it was built — when the builder's current state is
`b` reduces `items` through `b.criteriaChain` left to right and then
applies `b.orderBy` if set. -/
def CriteriaBuilder.builtEvaluate {T K : Type} [LinearOrder K]
    (b : CriteriaBuilder T K) (items : List T) : List T :=
  applyOrderOpt b.orderBy
    (b.criteriaChain.foldl (fun res criteria => criteria.meetCriteria res) items)

/-- C4: AndCriteria sequential narrowing — for every pair of criteria and
every input sequence, `And(a,b).meetCriteria(items)` equals
`b.meetCriteria(a.meetCriteria(items))`: the second sub-criteria runs on the
first's result, not on the original input. -/
theorem andCriteria_sequential_narrowing {T : Type} (a b : Criteria T)
    (items : List T) :
    (AndCriteria a b).meetCriteria items = b.meetCriteria (a.meetCriteria items) :=
  rfl

/-- C5: NotCriteria complement with order preservation — `Not(c)` keeps
exactly the input items missing (by the decidable-equality membership that
models SameValueZero) from `c.meetCriteria(items)`, as a filter over the
original sequence: the result is a sublist of the input (original relative
order preserved) and membership is the stated complement. -/
theorem notCriteria_complement_order {T : Type} [DecidableEq T]
    (c : Criteria T) (items : List T) :
    (NotCriteria c).meetCriteria items
        = items.filter (fun item => decide (item ∉ c.meetCriteria items))
      ∧ ((NotCriteria c).meetCriteria items).Sublist items
      ∧ ∀ x, x ∈ (NotCriteria c).meetCriteria items
          ↔ x ∈ items ∧ x ∉ c.meetCriteria items := by
  refine ⟨rfl, List.filter_sublist items, fun x => ?_⟩
  simp [NotCriteria]

/-- C8: dynamic criteria factory — `Criteria.create(p).meetCriteria(items)`
is exactly the stable filter of `items` by `p`: it equals `items.filter p`,
is a sublist of the input (original relative order), contains exactly the
items satisfying `p`, and maps empty input to empty output. -/
theorem criteria_create_filter {T : Type} (p : T → Bool) (items : List T) :
    (Criteria.create p).meetCriteria items = items.filter p
      ∧ ((Criteria.create p).meetCriteria items).Sublist items
      ∧ (∀ x, x ∈ (Criteria.create p).meetCriteria items
            ↔ x ∈ items ∧ p x = true)
      ∧ (Criteria.create p).meetCriteria ([] : List T) = [] := by
  refine ⟨rfl, List.filter_sublist items, fun x => ?_, rfl⟩
  simp [Criteria.create]

/-- C7: builder empty-chain identity — the composite built from a fresh
builder (no criteria added, no ordering directive) returns every input,
including the empty one, unchanged. -/
theorem builder_empty_chain_identity (T K : Type) [LinearOrder K]
    (items : List T) :
    (CriteriaBuilder.new T K).builtEvaluate items = items :=
  rfl

/-- A concrete even-number criteria used in counterexamples. -/
def evenCriteria : Criteria Nat :=
  Criteria.create (fun n => n % 2 == 0)

/-- C1 counterexample: build() does not snapshot.  The composite returned by
`build()` closes over `this`, so `this.criteriaChain` is read at evaluation
time; `addCriteria` pushes into that same array.  A composite built from the
fresh builder therefore evaluates `[1, 2]` to `[1, 2]` before the mutation
but to `[2]` after `addCriteria(even)` — the mutation changes the output of
the previously built composite, refuting the claimed independence. -/
theorem builder_snapshot_cex :
    ¬ (((CriteriaBuilder.new Nat Nat).addCriteria evenCriteria).builtEvaluate [1, 2]
        = (CriteriaBuilder.new Nat Nat).builtEvaluate [1, 2]) := by
  decide

/-- C1 (amended): the composite returned by `build()` tracks the builder's
live state.  Evaluating a previously built composite after a later
`addCriteria c` applies `c` after the old chain (then the old ordering), and
after a later `setOrderBy k d` applies the new ordering after the old chain
— later mutation of the builder does change previously built composites, in
exactly this way. -/
theorem builtEvaluate_tracks_builder_state {T K : Type} [LinearOrder K]
    (b : CriteriaBuilder T K) (c : Criteria T) (k : T → K)
    (d : OrderDirection) (items : List T) :
    (b.addCriteria c).builtEvaluate items
        = applyOrderOpt b.orderBy
            (c.meetCriteria
              (b.criteriaChain.foldl
                (fun res criteria => criteria.meetCriteria res) items))
      ∧ (b.setOrderBy k d).builtEvaluate items
        = OrderBy.apply ⟨k, d⟩
            (b.criteriaChain.foldl
              (fun res criteria => criteria.meetCriteria res) items) := by
  constructor
  · simp [CriteriaBuilder.builtEvaluate, CriteriaBuilder.addCriteria,
      List.foldl_append]
  · rfl

/-- Chain-shape of a builder obtained by folding `addCriteria` over a list
of criteria: the chain is the list, appended to the starting chain, and the
ordering directive is untouched. -/
theorem foldl_addCriteria_chain {T K : Type} (cs : List (Criteria T)) :
    ∀ b : CriteriaBuilder T K,
      cs.foldl CriteriaBuilder.addCriteria b
        = ⟨b.criteriaChain ++ cs, b.orderBy⟩ := by
  induction cs with
  | nil => intro b; simp
  | cons c cs ih =>
      intro b
      simp [List.foldl_cons, ih, CriteriaBuilder.addCriteria]

/-- C3: builder composite equivalence — the composite built by
`addCriteria(a).addCriteria(b).setOrderBy(k, desc).build()` evaluates `s` to
`OrderBy(k, desc).apply(b.meetCriteria(a.meetCriteria(s)))`; in general the
composite folds the input through each chained criteria left to right and
then applies the ordering directive, if set, as the final step. -/
theorem builder_composite_fold_then_order {T K : Type} [LinearOrder K]
    (a b : Criteria T) (k : T → K) (s : List T) :
    ((((CriteriaBuilder.new T K).addCriteria a).addCriteria b).setOrderBy
          k OrderDirection.desc).builtEvaluate s
        = OrderBy.apply ⟨k, OrderDirection.desc⟩
            (b.meetCriteria (a.meetCriteria s))
      ∧ (∀ (cs : List (Criteria T)) (d : OrderDirection) (items : List T),
          ((cs.foldl CriteriaBuilder.addCriteria
              (CriteriaBuilder.new T K)).setOrderBy k d).builtEvaluate items
            = OrderBy.apply ⟨k, d⟩
                (cs.foldl (fun res c => c.meetCriteria res) items))
      ∧ (∀ (cs : List (Criteria T)) (items : List T),
          (cs.foldl CriteriaBuilder.addCriteria
              (CriteriaBuilder.new T K)).builtEvaluate items
            = cs.foldl (fun res c => c.meetCriteria res) items) := by
  refine ⟨rfl, fun cs d items => ?_, fun cs items => ?_⟩
  · rw [foldl_addCriteria_chain]
    rfl
  · rw [foldl_addCriteria_chain]
    rfl

/-- `setDedupAux` depends on the seen-list only through membership. -/
theorem setDedupAux_congr {T : Type} [DecidableEq T] (l : List T) :
    ∀ seen₁ seen₂ : List T, (∀ x, x ∈ seen₁ ↔ x ∈ seen₂) →
      setDedupAux seen₁ l = setDedupAux seen₂ l := by
  induction l with
  | nil => intro seen₁ seen₂ _; rfl
  | cons x xs ih =>
      intro seen₁ seen₂ h
      by_cases hx : x ∈ seen₁
      · rw [setDedupAux, setDedupAux, if_pos hx, if_pos ((h x).mp hx)]
        exact ih seen₁ seen₂ h
      · rw [setDedupAux, setDedupAux, if_neg hx,
          if_neg (fun hc => hx ((h x).mpr hc))]
        refine congrArg (x :: ·) (ih (x :: seen₁) (x :: seen₂) fun y => ?_)
        simp [h y]

/-- Splitting `setDedupAux` across an append: the second half is processed
with the first half added to the seen-list. -/
theorem setDedupAux_append {T : Type} [DecidableEq T] (l₁ l₂ : List T) :
    ∀ seen : List T,
      setDedupAux seen (l₁ ++ l₂)
        = setDedupAux seen l₁ ++ setDedupAux (seen ++ l₁) l₂ := by
  induction l₁ with
  | nil =>
      intro seen
      simp [setDedupAux]
  | cons x xs ih =>
      intro seen
      by_cases hx : x ∈ seen
      · rw [List.cons_append, setDedupAux, if_pos hx, setDedupAux, if_pos hx,
          ih]
        refine congrArg (setDedupAux seen xs ++ ·)
          (setDedupAux_congr l₂ _ _ fun y => ?_)
        by_cases hyx : y = x <;> simp [hyx, hx]
      · rw [List.cons_append, setDedupAux, if_neg hx, setDedupAux, if_neg hx,
          ih]
        rw [List.cons_append]
        refine congrArg (x :: ·)
          (congrArg (setDedupAux (x :: seen) xs ++ ·)
            (setDedupAux_congr l₂ _ _ fun y => ?_))
        simp only [List.mem_cons, List.mem_append]
        tauto

/-- On a duplicate-free list, first-occurrence dedup is just the filter that
drops the already-seen elements. -/
theorem setDedupAux_of_nodup {T : Type} [DecidableEq T] {l : List T}
    (hl : l.Nodup) :
    ∀ seen : List T,
      setDedupAux seen l = l.filter (fun x => decide (x ∉ seen)) := by
  induction l with
  | nil => intro seen; rfl
  | cons x xs ih =>
      intro seen
      rcases List.nodup_cons.mp hl with ⟨hx, hxs⟩
      by_cases hseen : x ∈ seen
      · rw [setDedupAux, if_pos hseen, ih hxs]
        simp [hseen]
      · rw [setDedupAux, if_neg hseen, ih hxs]
        have hfilter :
            xs.filter (fun y => decide (y ∉ x :: seen))
              = xs.filter (fun y => decide (y ∉ seen)) := by
          refine List.filter_congr fun y hy => ?_
          have hyx : y ≠ x := fun h => hx (h ▸ hy)
          simp [hyx, List.mem_cons]
        rw [hfilter, List.filter_cons]
        simp [hseen]

/-- C2: OrCriteria result order and deduplication — when the two
sub-criteria's match lists are duplicate-free (which dedup-by-identity
guarantees for contract-abiding criteria over identity-distinct inputs),
`Or(a,b).meetCriteria(items)` is exactly a's matches in their original
relative order followed by b's matches not already included, in their
original relative order. -/
theorem orCriteria_first_then_second_dedup {T : Type} [DecidableEq T]
    (a b : Criteria T) (items : List T)
    (ha : (a.meetCriteria items).Nodup) (hb : (b.meetCriteria items).Nodup) :
    (OrCriteria a b).meetCriteria items
      = a.meetCriteria items
          ++ (b.meetCriteria items).filter
              (fun x => decide (x ∉ a.meetCriteria items)) := by
  show setDedup (a.meetCriteria items ++ b.meetCriteria items) = _
  rw [setDedup, setDedupAux_append, List.nil_append, setDedupAux_of_nodup ha,
    setDedupAux_of_nodup hb]
  simp

/-- A concrete criteria matching `[X, Z] = [0, 2]` from the input
`[X, Y, Z] = [0, 1, 2]`. -/
def criteriaXZ : Criteria Nat :=
  Criteria.create (fun n => n != 1)

/-- A concrete criteria matching `[Y, X] = [1, 0]`, as in the spec's
OrCriteria ordering example. -/
def criteriaYX : Criteria Nat :=
  ⟨fun _ => [1, 0]⟩

/-- C2 witness: the spec's concrete instance — with `a` matching `[X, Z]`
and `b` matching `[Y, X]` from input `[X, Y, Z]`, the Or result is exactly
`[X, Z, Y]` (here `[0, 2, 1]`). -/
theorem orCriteria_first_then_second_dedup_witness :
    (OrCriteria criteriaXZ criteriaYX).meetCriteria [0, 1, 2] = [0, 2, 1] :=
  (orCriteria_first_then_second_dedup criteriaXZ criteriaYX [0, 1, 2]
      (by decide) (by decide)).trans (by decide)

/-- Inserting with `sortInsert` permutes: the result is the element consed
onto the list, up to permutation. -/
theorem sortInsert_perm {T : Type} (cmp : T → T → Int) (x : T) :
    ∀ l : List T, (sortInsert cmp x l).Perm (x :: l) := by
  intro l
  induction l with
  | nil => exact List.Perm.refl [x]
  | cons y ys ih =>
      rw [sortInsert]
      by_cases h : cmp x y ≤ 0
      · rw [if_pos h]
      · rw [if_neg h]
        exact (ih.cons y).trans (List.Perm.swap x y ys)

/-- `stableSort` permutes its input. -/
theorem stableSort_perm {T : Type} (cmp : T → T → Int) :
    ∀ l : List T, (stableSort cmp l).Perm l := by
  intro l
  induction l with
  | nil => exact List.Perm.refl []
  | cons x xs ih =>
      rw [stableSort]
      exact (sortInsert_perm cmp x _).trans (ih.cons x)

/-- A strictly positive comparator outcome separates the selected
attributes, in either direction. -/
theorem cmp_pos_property_ne {T K : Type} [LinearOrder K] (ob : OrderBy T K)
    (x y : T) (h : 0 < ob.cmp x y) : ob.property y ≠ ob.property x := by
  by_cases h1 : ob.property x < ob.property y
  · exact h1.ne'
  · by_cases h2 : ob.property y < ob.property x
    · exact h2.ne
    · rw [OrderBy.cmp, if_neg h1, if_neg h2] at h
      exact absurd h (by norm_num)

/-- Ascending comparator: a non-positive outcome means the first selected
attribute is not larger. -/
theorem cmp_le_zero_asc {T K : Type} [LinearOrder K] (ob : OrderBy T K)
    (hdir : ob.direction = OrderDirection.asc) (x y : T)
    (h : ob.cmp x y ≤ 0) : ob.property x ≤ ob.property y := by
  by_cases h1 : ob.property x < ob.property y
  · exact h1.le
  · by_cases h2 : ob.property y < ob.property x
    · exfalso
      rw [OrderBy.cmp, if_neg h1, if_pos h2, hdir, if_pos rfl] at h
      omega
    · exact not_lt.mp h2

/-- Ascending comparator: a positive outcome means the second selected
attribute is not larger. -/
theorem cmp_pos_asc {T K : Type} [LinearOrder K] (ob : OrderBy T K)
    (hdir : ob.direction = OrderDirection.asc) (x y : T)
    (h : 0 < ob.cmp x y) : ob.property y ≤ ob.property x := by
  by_cases h1 : ob.property x < ob.property y
  · exfalso
    rw [OrderBy.cmp, if_pos h1, hdir, if_pos rfl] at h
    omega
  · exact not_lt.mp h1

/-- Descending comparator: a non-positive outcome means the second selected
attribute is not larger. -/
theorem cmp_le_zero_desc {T K : Type} [LinearOrder K] (ob : OrderBy T K)
    (hdir : ob.direction = OrderDirection.desc) (x y : T)
    (h : ob.cmp x y ≤ 0) : ob.property y ≤ ob.property x := by
  by_cases h1 : ob.property x < ob.property y
  · exfalso
    rw [OrderBy.cmp, if_pos h1, hdir,
      if_neg (by decide : ¬ (OrderDirection.desc = OrderDirection.asc))] at h
    omega
  · exact not_lt.mp h1

/-- Descending comparator: a positive outcome means the first selected
attribute is not larger. -/
theorem cmp_pos_desc {T K : Type} [LinearOrder K] (ob : OrderBy T K)
    (hdir : ob.direction = OrderDirection.desc) (x y : T)
    (h : 0 < ob.cmp x y) : ob.property x ≤ ob.property y := by
  by_cases h2 : ob.property y < ob.property x
  · exfalso
    rw [OrderBy.cmp, if_neg (lt_asymm h2), if_pos h2, hdir,
      if_neg (by decide : ¬ (OrderDirection.desc = OrderDirection.asc))] at h
    omega
  · exact not_lt.mp h2

/-- Filtering a `sortInsert` result when the inserted element satisfies the
filter and every element the comparator ranks strictly below it fails the
filter: the inserted element lands in front of the filtered list. -/
theorem filter_sortInsert_of_pos {T : Type} (cmp : T → T → Int) (p : T → Bool)
    (x : T) (hx : p x = true) (hcmp : ∀ y, 0 < cmp x y → p y = false) :
    ∀ l : List T, (sortInsert cmp x l).filter p = x :: l.filter p := by
  intro l
  induction l with
  | nil => simp [sortInsert, hx]
  | cons y ys ih =>
      rw [sortInsert]
      by_cases h : cmp x y ≤ 0
      · rw [if_pos h]
        simp [List.filter_cons, hx]
      · rw [if_neg h]
        have hy : p y = false := hcmp y (by omega)
        simp [List.filter_cons, hy, ih]

/-- Filtering a `sortInsert` result when the inserted element fails the
filter: the filtered list is unchanged. -/
theorem filter_sortInsert_of_neg {T : Type} (cmp : T → T → Int) (p : T → Bool)
    (x : T) (hx : p x = false) :
    ∀ l : List T, (sortInsert cmp x l).filter p = l.filter p := by
  intro l
  induction l with
  | nil => simp [sortInsert, hx]
  | cons y ys ih =>
      rw [sortInsert]
      by_cases h : cmp x y ≤ 0
      · rw [if_pos h]
        simp [List.filter_cons, hx]
      · rw [if_neg h]
        simp [List.filter_cons, ih]

/-- Stability of the sort, phrased through tie classes: restricting the
sorted output to the items whose selected attribute equals any fixed value
gives exactly the input's such items, in input order.  Holds for both
directions, because a strictly positive comparator outcome always separates
attribute values. -/
theorem filter_stableSort_key {T K : Type} [LinearOrder K] (ob : OrderBy T K)
    (v : K) : ∀ l : List T,
      (stableSort ob.cmp l).filter (fun x => decide (ob.property x = v))
        = l.filter (fun x => decide (ob.property x = v)) := by
  intro l
  induction l with
  | nil => rfl
  | cons x xs ih =>
      rw [stableSort]
      by_cases hx : ob.property x = v
      · have hcmp : ∀ y, 0 < ob.cmp x y →
            (fun z => decide (ob.property z = v)) y = false := by
          intro y hy
          have hne := cmp_pos_property_ne ob x y hy
          simp only [decide_eq_false_iff_not]
          exact hx ▸ hne
        rw [filter_sortInsert_of_pos ob.cmp _ x (by simp [hx]) hcmp, ih,
          List.filter_cons]
        simp [hx]
      · have hxf : (fun z => decide (ob.property z = v)) x = false := by
          simp [hx]
        rw [filter_sortInsert_of_neg ob.cmp _ x hxf, ih, List.filter_cons]
        simp [hx]

/-- `sortInsert` preserves pairwise ordering by any relation the comparator
refines transitively. -/
theorem pairwise_sortInsert {T : Type} (cmp : T → T → Int) (R : T → T → Prop)
    (hle : ∀ x y, cmp x y ≤ 0 → R x y) (hgt : ∀ x y, 0 < cmp x y → R y x)
    (htrans : ∀ a b c, R a b → R b c → R a c) (x : T) :
    ∀ l : List T, l.Pairwise R → (sortInsert cmp x l).Pairwise R := by
  intro l
  induction l with
  | nil => intro _; simp [sortInsert]
  | cons y ys ih =>
      intro hl
      rcases List.pairwise_cons.mp hl with ⟨hy, hys⟩
      rw [sortInsert]
      by_cases h : cmp x y ≤ 0
      · rw [if_pos h]
        refine List.pairwise_cons.mpr ⟨?_, hl⟩
        intro z hz
        rcases List.mem_cons.mp hz with rfl | hz'
        · exact hle _ _ h
        · exact htrans x y z (hle _ _ h) (hy z hz')
      · rw [if_neg h]
        refine List.pairwise_cons.mpr ⟨?_, ih hys⟩
        intro z hz
        have hz' := (sortInsert_perm cmp x ys).mem_iff.mp hz
        rcases List.mem_cons.mp hz' with rfl | hz''
        · exact hgt _ _ (by omega)
        · exact hy z hz''

/-- `stableSort` output is pairwise ordered by any transitive relation the
comparator refines. -/
theorem pairwise_stableSort {T : Type} (cmp : T → T → Int) (R : T → T → Prop)
    (hle : ∀ x y, cmp x y ≤ 0 → R x y) (hgt : ∀ x y, 0 < cmp x y → R y x)
    (htrans : ∀ a b c, R a b → R b c → R a c) :
    ∀ l : List T, (stableSort cmp l).Pairwise R := by
  intro l
  induction l with
  | nil => simp [stableSort]
  | cons x xs ih =>
      rw [stableSort]
      exact pairwise_sortInsert cmp R hle hgt htrans x _ ih

/-- C6: OrderBy stability and direction — `apply` permutes its input and
sorts it by the natural ordering of the selected attribute (pairwise
non-decreasing when ascending, pairwise non-increasing when descending);
the descending comparator is the pointwise negation of the ascending one
(direction inverts each pairwise comparison outcome, it does not reverse
the sequence); and the sort is stable in both directions: for any attribute
value, the items carrying it appear in the output in their input order. -/
theorem orderBy_stable_and_direction {T K : Type} [LinearOrder K]
    (ob : OrderBy T K) (items : List T) (v : K) (a b : T) :
    (ob.apply items).Perm items
      ∧ (ob.apply items).filter (fun x => decide (ob.property x = v))
          = items.filter (fun x => decide (ob.property x = v))
      ∧ OrderBy.cmp ⟨ob.property, OrderDirection.desc⟩ a b
          = - OrderBy.cmp ⟨ob.property, OrderDirection.asc⟩ a b
      ∧ (ob.direction = OrderDirection.asc →
          (ob.apply items).Pairwise
            (fun x y => ob.property x ≤ ob.property y))
      ∧ (ob.direction = OrderDirection.desc →
          (ob.apply items).Pairwise
            (fun x y => ob.property y ≤ ob.property x)) := by
  refine ⟨stableSort_perm ob.cmp items, filter_stableSort_key ob v items,
    ?_, fun hdir => ?_, fun hdir => ?_⟩
  · rw [OrderBy.cmp, OrderBy.cmp]
    rcases lt_trichotomy (ob.property a) (ob.property b) with h | h | h
    · rw [if_pos h, if_pos h]
      simp
    · have h1 : ¬ ob.property a < ob.property b := by simp [h]
      have h2 : ¬ ob.property a > ob.property b := by simp [h]
      rw [if_neg h1, if_neg h2, if_neg h1, if_neg h2]
      simp
    · have h1 : ¬ ob.property a < ob.property b := not_lt.mpr h.le
      rw [if_neg h1, if_pos h, if_neg h1, if_pos h]
      simp
  · exact pairwise_stableSort ob.cmp _
      (fun x y hxy => cmp_le_zero_asc ob hdir x y hxy)
      (fun x y hxy => cmp_pos_asc ob hdir x y hxy)
      (fun p q r hpq hqr => le_trans hpq hqr) items
  · exact pairwise_stableSort ob.cmp _
      (fun x y hxy => cmp_le_zero_desc ob hdir x y hxy)
      (fun x y hxy => cmp_pos_desc ob hdir x y hxy)
      (fun p q r hpq hqr => le_trans hqr hpq) items

/-- The spec's stability example: age-35 records at two different input
positions, with an age-30 record between them. -/
def usersByAge : List (Nat × Nat) :=
  [(0, 35), (1, 30), (2, 35)]

/-- An ascending OrderBy on the second (age) component. -/
def ageAsc : OrderBy (Nat × Nat) Nat :=
  ⟨Prod.snd, OrderDirection.asc⟩

/-- A descending OrderBy on the second (age) component. -/
def ageDesc : OrderBy (Nat × Nat) Nat :=
  ⟨Prod.snd, OrderDirection.desc⟩

/-- C6 witness: at the concrete tied-ages input, ascending sort keeps the
two age-35 records in input order, the ascending output is pairwise
non-decreasing, and the descending output is pairwise non-increasing. -/
theorem orderBy_stable_and_direction_witness :
    (ageAsc.apply usersByAge).filter
        (fun x => decide (ageAsc.property x = 35))
      = usersByAge.filter (fun x => decide (ageAsc.property x = 35))
    ∧ (ageAsc.apply usersByAge).Pairwise
        (fun x y => ageAsc.property x ≤ ageAsc.property y)
    ∧ (ageDesc.apply usersByAge).Pairwise
        (fun x y => ageDesc.property y ≤ ageDesc.property x) :=
  ⟨(orderBy_stable_and_direction ageAsc usersByAge 35 (0, 35) (1, 30)).2.1,
    (orderBy_stable_and_direction ageAsc usersByAge 35 (0, 35)
      (1, 30)).2.2.2.1 rfl,
    (orderBy_stable_and_direction ageDesc usersByAge 35 (0, 35)
      (1, 30)).2.2.2.2 rfl⟩

/-- An array reference: an index into the store below.  Used to model the
aliasing behaviour of JavaScript arrays, which are heap objects passed by
reference. -/
abbrev Ref : Type := Nat

/-- A heap of arrays: the model in which in-place mutation (by
`Array.prototype.sort`) and fresh allocation (by `filter` and the spread
operator) are distinguishable. -/
structure Store (T : Type) : Type where
  arrays : List (List T)

/-- Dereference an array (out-of-range references read as empty). -/
def Store.read {T : Type} (s : Store T) (r : Ref) : List T :=
  s.arrays.getD r []

/-- Overwrite the array behind a reference in place. -/
def Store.write {T : Type} (s : Store T) (r : Ref) (l : List T) : Store T :=
  ⟨s.arrays.set r l⟩

/-- Allocate a fresh array holding `l` and return its reference. -/
def Store.alloc {T : Type} (s : Store T) (l : List T) : Store T × Ref :=
  (⟨s.arrays ++ [l]⟩, s.arrays.length)

/-- A `meetCriteria`-shaped operation in the store model: it receives the
reference of the items array and returns the (possibly mutated or extended)
store together with the reference of its result array. -/
def StoreFun (T : Type) : Type :=
  Store T → Ref → Store T × Ref

/-- `Criteria.create(p)` in the store model: `items.filter(predicate)`
allocates a fresh result array and leaves the input untouched. -/
def createRef {T : Type} (predicate : T → Bool) : StoreFun T :=
  fun s r => s.alloc ((s.read r).filter predicate)

/-- `AndCriteria` in the store model: run the first sub-criteria, then the
second on the first's result reference. -/
def andRef {T : Type} (criteria otherCriteria : StoreFun T) : StoreFun T :=
  fun s r =>
    let first := criteria s r
    otherCriteria first.1 first.2

/-- `OrCriteria` in the store model: run both sub-criteria on the original
reference, then allocate `[...new Set([...first, ...other])]` fresh. -/
def orRef {T : Type} [DecidableEq T] (criteria otherCriteria : StoreFun T) :
    StoreFun T :=
  fun s r =>
    let first := criteria s r
    let second := otherCriteria first.1 r
    second.1.alloc (setDedup (second.1.read first.2 ++ second.1.read second.2))

/-- `NotCriteria` in the store model: run the sub-criteria, then allocate
the filter of the (current) input array fresh. -/
def notRef {T : Type} [DecidableEq T] (criteria : StoreFun T) : StoreFun T :=
  fun s r =>
    let sub := criteria s r
    sub.1.alloc
      ((sub.1.read r).filter (fun item => decide (item ∉ sub.1.read sub.2)))

/-- `OrderBy.apply` in the store model: `items.sort(cmp)` sorts the array
behind the reference IN PLACE and evaluates to that very reference
(ECMAScript: `sort` returns the receiver); `apply` returns it unchanged.
No allocation happens. -/
def OrderBy.applyRef {T K : Type} [LinearOrder K] (ob : OrderBy T K) :
    StoreFun T :=
  fun s r => (s.write r (stableSort ob.cmp (s.read r)), r)

/-- The composite returned by `build()` in the store model: reduce the item
reference through the chain, then apply the ordering directive, if set, to
the resulting reference. -/
def buildRefEvaluate {T K : Type} [LinearOrder K] (chain : List (StoreFun T))
    (ob : Option (OrderBy T K)) : StoreFun T :=
  fun s r =>
    let res := chain.foldl (fun acc criteria => criteria acc.1 acc.2) (s, r)
    match ob with
    | some o => o.applyRef res.1 res.2
    | none => res

/-- C10: OrderBy.apply is in place — it returns the very reference it was
given, allocates nothing (the store keeps exactly its arrays), and after
the call the caller's array itself holds the sorted contents. -/
theorem orderBy_applyRef_in_place {T K : Type} [LinearOrder K]
    (ob : OrderBy T K) (s : Store T) (r : Ref) :
    (ob.applyRef s r).2 = r
      ∧ ((ob.applyRef s r).1).arrays.length = s.arrays.length
      ∧ ((ob.applyRef s r).1).read r = stableSort ob.cmp (s.read r) := by
  refine ⟨rfl, List.length_set s.arrays r _, ?_⟩
  show ((s.arrays.set r _).getD r []) = _
  by_cases h : r < s.arrays.length
  · rw [List.getD_eq_getElem?_getD, List.getElem?_set_self h]
    rfl
  · rw [List.set_eq_of_length_le (not_lt.mp h)]
    have hnone : s.arrays.getD r [] = [] := by
      rw [List.getD_eq_getElem?_getD, List.getElem?_eq_none (not_lt.mp h)]
      rfl
    show s.arrays.getD r [] = stableSort ob.cmp (s.read r)
    rw [hnone]
    show ([] : List T) = stableSort ob.cmp (s.arrays.getD r [])
    rw [hnone]
    rfl

/-- An identity OrderBy on naturals, used in the mutation counterexample. -/
def natAsc : OrderBy Nat Nat :=
  ⟨fun n => n, OrderDirection.asc⟩

/-- C9 counterexample: a composite returned by `build()` is not free of
side effects.  With an empty chain the reduce returns the caller's array
reference itself, and the ordering directive then sorts that array in
place: evaluating the empty-chain composite with ordering `natAsc` on a
store holding the single array `[2, 1]` leaves the caller's array holding
`[1, 2]` — the input sequence was modified. -/
theorem builder_composite_mutates_input_cex :
    ((buildRefEvaluate ([] : List (StoreFun Nat)) (some natAsc)
        ⟨[[2, 1]]⟩ 0).1).read 0 = [1, 2]
      ∧ ¬ ((Store.mk [[2, 1]]).read 0 = [1, 2]) := by
  constructor
  · rfl
  · decide

/-- A store-model operation extends the store: every array that existed
before the call still holds exactly its previous contents afterwards (fresh
arrays may be appended).  This is the frame property "the caller's input
sequence, and everything else already allocated, is left unmodified". -/
def Extends {T : Type} (f : StoreFun T) : Prop :=
  ∀ (s : Store T) (r : Ref), ((f s r).1).arrays.take s.arrays.length = s.arrays

/-- Store extension composes transitively. -/
theorem take_extends_trans {T : Type} {A B C : List (List T)}
    (h1 : B.take A.length = A) (h2 : C.take B.length = B) :
    C.take A.length = A := by
  have hAB : A.length ≤ B.length := by
    have := congrArg List.length h1
    rw [List.length_take] at this
    omega
  calc C.take A.length
      = (C.take B.length).take A.length := by
        rw [List.take_take, min_eq_left hAB]
    _ = B.take A.length := by rw [h2]
    _ = A := h1

/-- Allocation extends the store. -/
theorem alloc_take {T : Type} (s : Store T) (l : List T) :
    ((s.alloc l).1).arrays.take s.arrays.length = s.arrays :=
  List.take_left s.arrays [l]

/-- C9 (amended): the library's four criteria never modify existing arrays
— `Criteria.create` allocates its filtered result fresh, and `And`, `Or`,
`Not` extend the store whenever their sub-criteria do — and a composite
from `build()` whose ordering directive is unset extends the store whenever
every chained criteria does.  (Per the counterexample, a composite WITH an
ordering directive may instead sort the caller's array in place.) -/
theorem library_criteria_preserve_store {T K : Type} [DecidableEq T]
    [LinearOrder K] (p : T → Bool) (f g : StoreFun T)
    (hf : Extends f) (hg : Extends g)
    (chain : List (StoreFun T)) (hchain : ∀ c ∈ chain, Extends c) :
    Extends (createRef p)
      ∧ Extends (andRef f g)
      ∧ Extends (orRef f g)
      ∧ Extends (notRef f)
      ∧ Extends (buildRefEvaluate chain (none : Option (OrderBy T K))) := by
  refine ⟨fun s r => alloc_take s _, fun s r => ?_, fun s r => ?_,
    fun s r => ?_, fun s r => ?_⟩
  · exact take_extends_trans (hf s r) (hg _ _)
  · exact take_extends_trans (hf s r)
      (take_extends_trans (hg _ _) (alloc_take _ _))
  · exact take_extends_trans (hf s r) (alloc_take _ _)
  · show ((chain.foldl (fun acc criteria => criteria acc.1 acc.2)
        (s, r)).1).arrays.take s.arrays.length = s.arrays
    induction chain generalizing s r with
    | nil => exact List.take_length s.arrays
    | cons c cs ih =>
        rw [List.foldl_cons]
        have hc : Extends c := hchain c (List.mem_cons_self c cs)
        have hcs : ∀ d ∈ cs, Extends d := fun d hd =>
          hchain d (List.mem_cons_of_mem c hd)
        exact take_extends_trans (hc s r)
          (ih hcs ((c s r).1) ((c s r).2))

/-- C9 witness: a concrete run of the amended frame property — an
`OrCriteria` of two dynamic criteria over a one-array store leaves that
array untouched (the store's first array is still the input). -/
theorem library_criteria_preserve_store_witness :
    ((orRef (createRef (fun n => n % 2 == 0)) (createRef (fun n => 1 ≤ n))
        ⟨[[1, 2, 3]]⟩ 0).1).arrays.take 1 = [[1, 2, 3]] :=
  (@library_criteria_preserve_store Nat Nat _ _ (fun n => n % 2 == 0)
      (createRef (fun n => n % 2 == 0)) (createRef (fun n => 1 ≤ n))
      (fun s _ => alloc_take s _) (fun s _ => alloc_take s _)
      [] (fun c hc => absurd hc (List.not_mem_nil c))).2.2.1
    ⟨[[1, 2, 3]]⟩ 0

end Criterium
